import Mathlib

/-!
Verification of the source-segmentation and schema-driven validation/completion
engine of this repository against its specification.

The definitions in the first part of this file are a shallow embedding of
`src/core/break-quarto-md.ts`: the segmenter is a line-oriented state machine,
so documents are represented as lists of lines (the TypeScript `lines(src)`
splits the raw string on newlines; a line therefore never ends in a newline
character). JavaScript regular expression tests are embedded as executable
predicates over the character list of a line.
-/

/-! ## Definitions -/

/-- JavaScript `\s` character class, embedded as `Char.isWhitespace`. -/
def wsChar (c : Char) : Bool := c.isWhitespace

/-- Embedding of `line.trim().length === 0`: the line consists of whitespace only. -/
def isBlankStr (l : String) : Bool := l.toList.all wsChar

/-- A line produced by splitting a document on newlines contains no `'\n'`. -/
def noNl (l : String) : Prop := '\n' ∉ l.toList

instance (l : String) : Decidable (noNl l) := by unfold noNl; infer_instance

/-- Embedding of `yamlRegEx = /^---\s*$/` of `break-quarto-md.ts`: three dashes followed by
whitespace only. -/
def yamlTest (l : String) : Bool :=
  match l.toList with
  | '-' :: '-' :: '-' :: rest => rest.all wsChar
  | _ => false

/-- Embedding of `startCodeRegEx = /^```/` of `break-quarto-md.ts`. -/
def startCodeTest (l : String) : Bool :=
  match l.toList with
  | '`' :: '`' :: '`' :: _ => true
  | _ => false

/-- Embedding of `endCodeRegEx = /^```\s*$/` of `break-quarto-md.ts`: exactly three backticks
followed by whitespace only (a fourth backtick is not whitespace, so longer
fences do not match). -/
def endCodeTest (l : String) : Bool :=
  match l.toList with
  | '`' :: '`' :: '`' :: rest => rest.all wsChar
  | _ => false

/-- Helper for `startCodeCellTest`: the last non-whitespace character of the
given characters is a closing brace (this is how the trailing `.*\x7d\s*$` part
of the regex can match, for some split of `.*`). -/
def lastNonWsIsBrace (cs : List Char) : Bool :=
  match cs.reverse.dropWhile wsChar with
  | '}' :: _ => true
  | _ => false

/-- Embedding of the target-language opening-fence regex
`new RegExp("^\\s*```+\\s*\\\x7b" + language + "( *[ ,].*)?\\\x7d\\s*$")`
of `break-quarto-md.ts`: optional leading whitespace, three or more backticks,
optional whitespace, an opening brace, the target language, and then either a
closing brace followed by whitespace, or spaces, a space-or-comma, arbitrary
text whose last non-whitespace character is the closing brace. -/
def startCodeCellTest (language : String) (l : String) : Bool :=
  let cs := l.toList.dropWhile wsChar
  let ticks := cs.takeWhile (fun c => c == '`')
  let rest := (cs.dropWhile (fun c => c == '`')).dropWhile wsChar
  decide (3 ≤ ticks.length) &&
    match rest with
    | '{' :: r2 =>
      language.toList.isPrefixOf r2 &&
        (match r2.drop language.toList.length with
         | [] => false
         | c :: tl =>
           (c == '}' && tl.all wsChar) ||
           ((c == ' ' || c == ',') && lastNonWsIsBrace tl))
    | _ => false

/-- The `cell_type` of `QuartoMdCell` in `break-quarto-md.ts`: the union
`"markdown" | CodeCellType | "raw"` (plus `"math"`, which
`validate-document.ts` tests for) as a closed variant. -/
inductive CellType where
  | markdown : CellType
  | raw : CellType
  | math : CellType
  | code (language : String) : CellType
deriving DecidableEq, Repr

/-- A cell produced by the segmenter (`QuartoMdCell`): a cell type and the list
of source lines, where every line except the last carries a trailing newline
(the `line + (index < length - 1 ? "\n" : "")` map of `flushLineBuffer`). -/
structure QuartoMdCell where
  cell_type : CellType
  source : List String
deriving DecidableEq, Repr

/-- The `cell_type` argument of `flushLineBuffer`: `"markdown" | "code" | "raw"`. -/
inductive FlushKind where
  | markdown : FlushKind
  | code : FlushKind
  | raw : FlushKind
deriving DecidableEq, Repr

/-- The mutable state of `breakQuartoMd`: the four boolean flags, the current
line buffer and the cells emitted so far. -/
structure BreakState where
  parsedFrontMatter : Bool
  inYaml : Bool
  inCodeCell : Bool
  inCode : Bool
  lineBuffer : List String
  cells : List QuartoMdCell
deriving DecidableEq, Repr

/-- The `source` construction of `flushLineBuffer`: append `"\n"` to every
buffered line except the last. -/
def addNl : List String → List String
  | [] => []
  | [x] => [x]
  | x :: y :: rest => (x ++ "\n") :: addNl (y :: rest)

/-- Embedding of `Array.prototype.findIndex` for the predicate "this element is not blank":
index of the first element on which `blank` is false. -/
def firstNonBlankIdxBy (blank : α → Bool) : List α → Option Nat
  | [] => none
  | x :: xs =>
    if !(blank x) then some 0 else (firstNonBlankIdxBy blank xs).map (· + 1)

/-- The `mdTrimEmptyLines` of `break-quarto-md.ts`, generalized over the blankness
predicate: find the first non-blank element (none: return `[]`), slice from
there, then find the last non-blank element (by scanning from the end, i.e. on
the reverse) and slice up to it inclusively. -/
def mdTrimEmptyLinesBy (blank : α → Bool) (ls : List α) : List α :=
  match firstNonBlankIdxBy blank ls with
  | none => []
  | some i =>
    let ls2 := ls.drop i
    match firstNonBlankIdxBy blank ls2.reverse with
    | none => ls2
    | some k => ls2.take (ls2.length - k)

/-- The `mdTrimEmptyLines` of `break-quarto-md.ts`, with blankness
`line.trim().length === 0`. -/
def mdTrimEmptyLines (ls : List String) : List String :=
  mdTrimEmptyLinesBy isBlankStr ls

/-- The two `splice` calls of `flushLineBuffer`: remove a single leading and a
single trailing element that is exactly the empty string. -/
def spliceTrim (buf : List String) : List String :=
  let b1 := if buf.head? = some "" then buf.tail else buf
  if b1.getLast? = some "" then b1.dropLast else b1

/-- The full source computation of `flushLineBuffer` on a line buffer: splice
off single empty boundary lines, decorate with newlines, and trim remaining
blank boundary lines. -/
def flushedSource (buf : List String) : List String :=
  mdTrimEmptyLines (addNl (spliceTrim buf))

/-- Embedding of the `cell_type === "code" ? \x7b language \x7d : cell_type`
map of `flushLineBuffer`. -/
def flushCellType (language : String) : FlushKind → CellType
  | .markdown => .markdown
  | .raw => .raw
  | .code => .code language

/-- The `flushLineBuffer` of `break-quarto-md.ts`: with a non-empty line buffer,
build the trimmed source; if it is non-empty, emit the cell; either way clear
the buffer. With an empty buffer, do nothing. -/
def flushLineBuffer (language : String) (k : FlushKind) (st : BreakState) :
    BreakState :=
  match st.lineBuffer with
  | [] => st
  | _ :: _ =>
    let source := flushedSource st.lineBuffer
    if 0 < source.length then
      { st with
        cells := st.cells ++ [⟨flushCellType language k, source⟩],
        lineBuffer := [] }
    else
      { st with lineBuffer := [] }

/-- The body of the `for (const line of lines(src))` loop of `breakQuartoMd`:
one state transition of the segmenter. -/
def processLine (language : String) (st : BreakState) (line : String) :
    BreakState :=
  if yamlTest line && !st.inCodeCell && !st.inCode then
    if st.inYaml then
      { flushLineBuffer language .raw
          { st with lineBuffer := st.lineBuffer ++ [line] } with
        parsedFrontMatter := true, inYaml := false }
    else
      { flushLineBuffer language .markdown st with
        lineBuffer := (flushLineBuffer language .markdown st).lineBuffer
          ++ [line],
        inYaml := true }
  else if startCodeCellTest language line then
    { flushLineBuffer language .markdown st with inCodeCell := true }
  else if endCodeTest line then
    if st.inCodeCell then
      flushLineBuffer language .code { st with inCodeCell := false }
    else
      { st with inCode := !st.inCode, lineBuffer := st.lineBuffer ++ [line] }
  else if startCodeTest line then
    { st with inCode := true, lineBuffer := st.lineBuffer ++ [line] }
  else
    { st with lineBuffer := st.lineBuffer ++ [line] }

/-- The initial state of `breakQuartoMd`: all flags false, empty buffer, no
cells. -/
def initBreakState : BreakState := ⟨false, false, false, false, [], []⟩

/-- The `breakQuartoMd` of `break-quarto-md.ts`, over the line list of the
document: fold the per-line transition over all lines and flush the remaining
buffer as markdown. -/
def breakQuartoMdLines (language : String) (ls : List String) :
    List QuartoMdCell :=
  (flushLineBuffer language .markdown
    (ls.foldl (processLine language) initBreakState)).cells

/-- Remove a single trailing newline character from a string (inverse of the
newline decoration `addNl` on split lines). -/
def stripNl (s : String) : String :=
  if s.toList.getLast? = some '\n' then String.mk s.toList.dropLast else s

/-- Undo the newline decoration on a whole line list. -/
def stripAll (ls : List String) : List String := ls.map stripNl

/-- A line the segmenter may discard: a blank line (trimmed at a flush
boundary), a target-language opening fence, or a closing fence (both dropped
by `breakQuartoMd` without buffering). -/
def Droppable (language : String) (l : String) : Prop :=
  isBlankStr l = true ∨ startCodeCellTest language l = true ∨
    endCodeTest l = true

/-- Coverage relation: `Covers language blocks doc` says: the document lines `doc` are exactly
the blocks `blocks` in order, each contiguous, interleaved only with
`Droppable` lines. This simultaneously expresses that no line outside the
droppable ones is lost, that no line is duplicated, and that document order is
preserved. -/
inductive Covers (language : String) : List (List String) → List String → Prop
  | nil : Covers language [] []
  | drop {bs : List (List String)} {rest : List String} (l : String)
      (h : Droppable language l) (hc : Covers language bs rest) :
      Covers language bs (l :: rest)
  | block {bs : List (List String)} {rest : List String} (b : List String)
      (hb : b ≠ []) (hc : Covers language bs rest) :
      Covers language (b :: bs) (b ++ rest)

/-- The emitted cells, with the newline decoration undone, as blocks of
original document lines. -/
def cellsContent (cells : List QuartoMdCell) : List (List String) :=
  cells.map (fun c => stripAll c.source)

/-- The loop invariant of `breakQuartoMd`: the lines processed so far split
into a prefix covered by the emitted cells and the current line buffer. -/
def SegInv (language : String) (processed : List String) (st : BreakState) :
    Prop :=
  ∃ p, processed = p ++ st.lineBuffer ∧
    Covers language (cellsContent st.cells) p ∧
    ∀ l ∈ st.lineBuffer, noNl l

/-- Modelled from the spec: the cells consumed by the cell-aware dispatcher in
`automation.js` carry a `cellStartLine` — "each cell records its first line
number in the root document" (spec §4.2). The segmenter variant providing it
(`core-lib`'s `breakQuartoMd`) is not under `src/`; we model it as the `src`
segmenter state machine instrumented with root line numbers. -/
structure IndexedCell where
  cell_type : CellType
  source : List String
  cellStartLine : Nat
deriving DecidableEq, Repr

/-- State of the instrumented segmenter: as `BreakState`, but buffered lines
carry their root row number. -/
structure IndexedState where
  parsedFrontMatter : Bool
  inYaml : Bool
  inCodeCell : Bool
  inCode : Bool
  lineBuffer : List (Nat × String)
  cells : List IndexedCell
deriving DecidableEq, Repr

/-- Blankness of a buffered (row, line) pair. -/
def idxBlank (q : Nat × String) : Bool := isBlankStr q.2

/-- Modelled from the spec: flushing in the instrumented segmenter trims
leading/trailing blank buffered lines (as `flushLineBuffer` does), drops the
cell if nothing remains, and otherwise records the root row of the first
remaining line as `cellStartLine`. -/
def flushIndexed (language : String) (k : FlushKind) (st : IndexedState) :
    IndexedState :=
  match mdTrimEmptyLinesBy idxBlank st.lineBuffer with
  | [] => { st with lineBuffer := [] }
  | (i, x) :: rest =>
    { st with
      cells := st.cells ++
        [⟨flushCellType language k, ((i, x) :: rest).map Prod.snd, i⟩],
      lineBuffer := [] }

/-- The per-line transition of the instrumented segmenter: the same state
machine as `processLine`, over (row, line) pairs. -/
def processLineIndexed (language : String) (st : IndexedState)
    (q : Nat × String) : IndexedState :=
  if yamlTest q.2 && !st.inCodeCell && !st.inCode then
    if st.inYaml then
      { flushIndexed language .raw
          { st with lineBuffer := st.lineBuffer ++ [q] } with
        parsedFrontMatter := true, inYaml := false }
    else
      { flushIndexed language .markdown st with
        lineBuffer := (flushIndexed language .markdown st).lineBuffer ++ [q],
        inYaml := true }
  else if startCodeCellTest language q.2 then
    { flushIndexed language .markdown st with inCodeCell := true }
  else if endCodeTest q.2 then
    if st.inCodeCell then
      flushIndexed language .code { st with inCodeCell := false }
    else
      { st with inCode := !st.inCode, lineBuffer := st.lineBuffer ++ [q] }
  else if startCodeTest q.2 then
    { st with inCode := true, lineBuffer := st.lineBuffer ++ [q] }
  else
    { st with lineBuffer := st.lineBuffer ++ [q] }

/-- Initial state of the instrumented segmenter. -/
def initIndexedState : IndexedState := ⟨false, false, false, false, [], []⟩

/-- The instrumented segmenter over a document given as its line list,
enumerated with root row numbers. -/
def breakQuartoMdIndexed (language : String) (ls : List String) :
    List IndexedCell :=
  (flushIndexed language .markdown
    ((List.enumFrom 0 ls).foldl (processLineIndexed language)
      initIndexedState)).cells

/-- A cell is well-placed in the document `ls`: its source is non-empty and
line `j` of its source is line `cellStartLine + j` of the document. -/
def CellOk (ls : List String) (c : IndexedCell) : Prop :=
  c.source ≠ [] ∧
    ∀ j, j < c.source.length → ls[c.cellStartLine + j]? = c.source[j]?

/-- Loop invariant of the instrumented segmenter after processing the first
`cur` lines: buffered rows are consecutive and end at `cur`, buffered lines
are the document lines at their rows, emitted cells are well-placed, end
before the buffer, and are in strictly increasing document order. -/
def IdxInv (ls : List String) (cur : Nat) (st : IndexedState) : Prop :=
  ∃ s, st.lineBuffer.map Prod.fst = List.range' s st.lineBuffer.length ∧
    s + st.lineBuffer.length = cur ∧
    (∀ q ∈ st.lineBuffer, ls[q.1]? = some q.2) ∧
    (∀ c ∈ st.cells, CellOk ls c ∧ c.cellStartLine + c.source.length ≤ s) ∧
    List.Chain' (fun a b => a.cellStartLine < b.cellStartLine) st.cells

/-- Modelled from the spec (§3, §4.5): the schema tree — object schemas with
named properties, array schemas with one item schema, scalar schemas, and
union schemas with a list of alternatives. The schema code
(`yaml/schemas.js`) is not under `src/`. -/
inductive Schema where
  | sBoolean : Schema
  | sString : Schema
  | sNumber : Schema
  | sObject (props : List (String × Schema)) : Schema
  | sArray (items : Schema) : Schema
  | sUnion (alts : List Schema) : Schema

/-- A path segment of a cursor path: a string key or a numeric index. -/
inductive PathSeg where
  | key (k : String) : PathSeg
  | idx (n : Nat) : PathSeg
deriving DecidableEq, Repr

mutual

/-- Modelled from the spec (§4.5): `navigateSchema`. An empty path returns the
schema itself; a union descends into every alternative and concatenates the
results; an object descends into the named property's schema for a key
segment; an array descends into the item schema for any index segment; any
other combination yields no schemas (only that branch is dropped). -/
def navigateSchema : Schema → List PathSeg → List Schema
  | s, [] => [s]
  | .sUnion alts, seg :: rest => navigateUnion alts (seg :: rest)
  | .sObject props, .key k :: rest => navigateProps props k rest
  | .sObject _, .idx _ :: _ => []
  | .sArray items, .idx _ :: rest => navigateSchema items rest
  | .sArray _, .key _ :: _ => []
  | .sBoolean, _ :: _ => []
  | .sString, _ :: _ => []
  | .sNumber, _ :: _ => []

/-- Union traversal: navigate each alternative, keeping the concatenation. -/
def navigateUnion : List Schema → List PathSeg → List Schema
  | [], _ => []
  | s :: ss, path => navigateSchema s path ++ navigateUnion ss path

/-- Named-property lookup followed by navigation into the found schema. -/
def navigateProps : List (String × Schema) → String → List PathSeg →
    List Schema
  | [], _, _ => []
  | (k', s) :: ps, k, rest =>
    if k' = k then navigateSchema s rest else navigateProps ps k rest

end

/-- Completion kind: key or value (`completion.type` in `automation.js`). -/
inductive CType where
  | key : CType
  | value : CType
deriving DecidableEq, Repr

/-- Modelled from the spec (§3): a completion candidate `{ value, kind,
sourceSchema }` plus the `suggest_on_accept` flag read by the indentation
rewrite in `completions`. -/
structure Completion where
  value : String
  ctype : CType
  schema : Schema
  suggest_on_accept : Bool

/-- Embedding of `core.schemaType(s) === "object"`. -/
def isObjectSchema : Schema → Bool
  | .sObject _ => true
  | _ => false

/-- Embedding of `core.schemaType(s) === "array"`. -/
def isArraySchema : Schema → Bool
  | .sArray _ => true
  | _ => false

/-- Embedding of `schema.properties[key]`: first named property binding. -/
def lookupProp : List (String × Schema) → String → Option Schema
  | [], _ => none
  | (k', s) :: ps, k => if k' = k then some s else lookupProp ps k

/-- The `properties` of an object schema. -/
def schemaProperties : Schema → List (String × Schema)
  | .sObject ps => ps
  | _ => []

mutual

/-- Modelled from the spec (§3 Completion, §8 scenario): the completion
candidates of a schema (`core.schemaCompletions`, not under `src/`): a boolean
scalar offers the value completions "true" and "false"; an object offers one
key completion per named property (carrying the object schema, as
`completions` reads `completion.schema.properties`); a union offers the
candidates of all alternatives. -/
def schemaCompletions : Schema → List Completion
  | .sBoolean => [⟨"true", .value, .sBoolean, true⟩,
      ⟨"false", .value, .sBoolean, true⟩]
  | .sString => []
  | .sNumber => []
  | .sObject props =>
    props.map (fun p => ⟨p.1 ++ ": ", .key, .sObject props, true⟩)
  | .sArray _ => []
  | .sUnion alts => schemaCompletionsUnion alts

/-- Candidates of all alternatives of a union, concatenated. -/
def schemaCompletionsUnion : List Schema → List Completion
  | [] => []
  | s :: ss => schemaCompletions s ++ schemaCompletionsUnion ss

end

/-- Embedding of `completion.value.split(":")[0]`. -/
def keyOfCompletion (c : Completion) : String :=
  String.mk (c.value.toList.takeWhile (fun ch => ch ≠ ':'))

/-- The indentation rewrite inside `completions` (automation.js): key
completions of an object schema whose sub-schema is an object or an array get
a newline, the comment prefix and indentation appended to their value; value
completions and everything else are returned unchanged. -/
def indentCompletion (indent : Nat) (commentPfx : String)
    (c : Completion) : Completion :=
  if !c.suggest_on_accept || c.ctype == CType.value ||
      !(isObjectSchema c.schema) then c
  else
    match lookupProp (schemaProperties c.schema) (keyOfCompletion c) with
    | some sub =>
      if isObjectSchema sub then
        { c with value := c.value ++ "\n" ++ commentPfx ++
            String.mk (List.replicate (indent + 2) ' ') }
      else if isArraySchema sub then
        { c with value := c.value ++ "\n" ++ commentPfx ++
            String.mk (List.replicate (indent + 2) ' ') ++ "- " }
      else c
    | none => c

/-- JavaScript `String.prototype.startsWith`. -/
def strStartsWith (s pre : String) : Bool := pre.toList.isPrefixOf s.toList

/-- JavaScript `indexOf(c) !== -1`. -/
def strContains (s : String) (c : Char) : Bool := s.toList.contains c

/-- The comparison `(a, b) => a.value.localeCompare(b.value)` used to sort
completions, modelled as lexicographic order on the value strings. -/
def completionLe (a b : Completion) : Prop := a.value ≤ b.value

instance : DecidableRel completionLe := fun a b =>
  inferInstanceAs (Decidable (a.value ≤ b.value))

instance : IsTotal Completion completionLe :=
  ⟨fun a b => le_total a.value b.value⟩

instance : IsTrans Completion completionLe :=
  ⟨fun _ _ _ h1 h2 => le_trans h1 h2⟩

/-- The result `{ token, completions, cacheable }` of `completions`. -/
structure CompletionResult where
  token : String
  completions : List Completion
  cacheable : Bool

/-- The `completions` function of `automation.js` (lines 283-341): navigate the schema to
the cursor path, collect each matching schema's completion candidates through
the indentation rewrite, keep those whose value starts with the word being
typed, and sort by value; return them with the token and `cacheable: true`.
The JavaScript in-place `.sort` is modelled as a stable insertion sort. -/
def completionsFn (schema : Schema) (path : List PathSeg) (word : String)
    (indent : Nat) (commentPfx : String) : CompletionResult :=
  { token := word,
    completions := List.insertionSort completionLe
      ((((navigateSchema schema path).map
          (fun s => (schemaCompletions s).map
            (indentCompletion indent commentPfx))).flatten).filter
        (fun c => strStartsWith c.value word)),
    cacheable := true }

/-- The cursor-context filter of `completionsFromGoodParseYAML` (lines
265-275): a line containing ":" keeps only value completions; a line with
neither ":" nor "-" keeps only key completions; otherwise the result passes
through unchanged. -/
def finishCompletions (line : String) (r : CompletionResult) :
    CompletionResult :=
  if strContains line ':' then
    { r with completions :=
        r.completions.filter (fun c => c.ctype == CType.value) }
  else if !(strContains line '-') then
    { r with completions :=
        r.completions.filter (fun c => c.ctype == CType.key) }
  else r

/-- Modelled from the spec (§3): a `ParseAttempt` — the collaborator's tree, the
truncated mapped code, and the count of trailing characters deleted. -/
structure ParseAttempt (T : Type) where
  tree : T
  mappedCode : String
  deletions : Nat
deriving DecidableEq

/-- Remove the last `d` characters of a line. -/
def truncateLine (line : String) (d : Nat) : String :=
  String.mk (line.toList.take (line.toList.length - d))

/-- Modelled from the spec (§4.3): `attemptParsesAtLine` (`yaml/parsing.js`,
not under `src/`): try the line as given, then with one, two, ... trailing
characters removed, yielding — most complete first — the truncations the
grammar-based parser collaborator accepts, each with its cumulative
`deletions` count. -/
def attemptParsesAtLine {T : Type} (parse : String → Option T)
    (line : String) : List (ParseAttempt T) :=
  (List.range (line.toList.length + 1)).filterMap (fun d =>
    (parse (truncateLine line d)).map (fun t => ⟨t, truncateLine line d, d⟩))

/-- The `validationFromGoodParseYAML` of `automation.js` (lines 61-103),
parameterized by the annotation-builder and validator collaborators: iterate
the parse attempts in order, skip attempts whose annotation is null, return
the validator's lints for the first annotated attempt, and return `[]` when
no parse is usable. -/
def validationFromGoodParseYAML {T A L : Type}
    (buildAnnotated : T → String → Option A) (validate : A → List L) :
    List (ParseAttempt T) → List L
  | [] => []
  | pa :: rest =>
    match buildAnnotated pa.tree pa.mappedCode with
    | none => validationFromGoodParseYAML buildAnnotated validate rest
    | some ann => validate ann

/-- The attempt loop of `completionsFromGoodParseYAML` (lines 191-280): first
attempt that produces a result wins; `none` (i.e. `false`, no completions)
when the attempts are exhausted. -/
def completionsLoop {T : Type}
    (processAttempt : ParseAttempt T → Option CompletionResult) :
    List (ParseAttempt T) → Option CompletionResult
  | [] => none
  | pa :: rest =>
    match processAttempt pa with
    | none => completionsLoop processAttempt rest
    | some r => some r

/-- The `completionsFromGoodParseYAML` of `automation.js` (lines 125-281),
skeletonized over the per-attempt work: a whitespace-only editing line is
completed immediately from indentation (`locateFromIndentation`, a
collaborator not under `src/`, passed as a parameter), with `indent` set to
the line length and only key completions kept, never consulting the parse
attempts; otherwise the attempts are tried in order and exhaustion yields no
completions. -/
def completionsFromGoodParseYAML {T : Type} (schema : Schema) (word : String)
    (line : String) (commentPfx : String)
    (locateIndent : Unit → List PathSeg)
    (processAttempt : ParseAttempt T → Option CompletionResult)
    (attempts : List (ParseAttempt T)) : Option CompletionResult :=
  if isBlankStr line then
    some { completionsFn schema (locateIndent ()) word line.toList.length
        commentPfx with
      completions :=
        (completionsFn schema (locateIndent ()) word line.toList.length
          commentPfx).completions.filter (fun c => c.ctype == CType.key) }
  else
    completionsLoop processAttempt attempts

/-- JavaScript `String.prototype.endsWith`. -/
def strEndsWith (s suf : String) : Bool := suf.toList.isSuffixOf s.toList

/-- A cell as consumed by `validateDocumentFromSource`: its type and the value
of its mapped source. -/
structure VCell where
  cell_type : CellType
  source : String
deriving DecidableEq

/-- The per-cell loop of `validateDocumentFromSource` (lines 78-104):
markdown, raw and math cells are skipped; a code cell whose language has no
registered options schema is skipped; otherwise
`partitionCellOptionsMapped` runs and a `ValidationError` it raises is caught
and its error list appended — modelled by the `Except` collaborator, which
raises only `ValidationError`s (a non-`ValidationError` exception is the
spec's tier-3 internal error, outside this model). -/
def cellLangLints {L : Type} (langSchemas : String → Option Unit)
    (partitionValidate : VCell → Except (List L) Unit) :
    List VCell → List L
  | [] => []
  | c :: rest =>
    match c.cell_type with
    | .code lang =>
      match langSchemas lang with
      | none => cellLangLints langSchemas partitionValidate rest
      | some _ =>
        match partitionValidate c with
        | .error es => es ++ cellLangLints langSchemas partitionValidate rest
        | .ok _ => cellLangLints langSchemas partitionValidate rest
    | _ => cellLangLints langSchemas partitionValidate rest

/-- The `validateDocumentFromSource` of `validate-document.ts` (lines 23-106),
parameterized over its collaborators: the front-matter validator (applied to
the first cell's source; the mapped-text slicing of the inner YAML is folded
into the collaborator), the language schema registry, and the per-cell
option validation. No cells: no validation. A first cell that starts with
"---" but does not end with "---" throws; otherwise the front-matter errors
(if the first cell is front matter) and the caught per-cell errors are
returned as the lint list. -/
def validateDocumentFromSource {L : Type} (cells : List VCell)
    (fmValidate : String → List L) (langSchemas : String → Option Unit)
    (partitionValidate : VCell → Except (List L) Unit) :
    Except String (List L) :=
  match cells with
  | [] => .ok []
  | firstCell :: restCells =>
    if strStartsWith firstCell.source "---" then
      if !(strEndsWith firstCell.source "---") then
        .error "Expected front matter to end with ---"
      else
        .ok (fmValidate firstCell.source ++
          cellLangLints langSchemas partitionValidate restCells)
    else
      .ok (cellLangLints langSchemas partitionValidate (firstCell :: restCells))

/-- Claim-side description of the collected per-cell errors: for each cell,
the error list its option validation raises (empty for non-code cells, cells
without a schema, and cells that validate), concatenated in order. -/
def perCellErrors {L : Type} (langSchemas : String → Option Unit)
    (partitionValidate : VCell → Except (List L) Unit) (c : VCell) : List L :=
  match c.cell_type with
  | .code lang =>
    if (langSchemas lang).isSome then
      match partitionValidate c with
      | .error es => es
      | .ok _ => []
    else []
  | _ => []

/-- JavaScript `String.prototype.trimEnd`. -/
def trimEndStr (s : String) : String :=
  String.mk (s.toList.reverse.dropWhile wsChar).reverse

/-- Embedding of `core.lines`: split a string on newline characters. -/
def splitLinesChars : List Char → List (List Char)
  | [] => [[]]
  | c :: rest =>
    if c = '\n' then [] :: splitLinesChars rest
    else
      match splitLinesChars rest with
      | [] => [[c]]
      | l :: ls => (c :: l) :: ls

/-- The line list of a string (`core.lines(code.value)`). -/
def linesOf (s : String) : List String := (splitLinesChars s.toList).map String.mk

/-- The cursor context handed to the YAML automation: the mapped code's value
and the cursor row (`context.code.value`, `context.position.row`). -/
structure YamlContext where
  codeValue : String
  row : Nat
deriving DecidableEq

/-- The `positionInTicks` of `automation.js` (lines 24-34): the cursor sits on the
opening "---" delimiter (row 0 of a block starting with "---") or on the
closing delimiter (last row of a block whose trimmed text ends with "---"). -/
def positionInTicks (ctx : YamlContext) : Bool :=
  (strStartsWith ctx.codeValue "---" && (ctx.row == 0)) ||
  (strEndsWith (trimEndStr ctx.codeValue) "---" &&
    (ctx.row == (linesOf ctx.codeValue).length - 1))

/-- The indices at which "---" occurs (for `lastIndexOf("---")`). -/
def dashIndices (cs : List Char) : List Nat :=
  (List.range cs.length).filter (fun i => ['-', '-', '-'].isPrefixOf (cs.drop i))

/-- The `trimTicks` of `automation.js` (lines 37-59): slice off a leading "---"
and everything from the last "---" on. -/
def trimTicks (ctx : YamlContext) : YamlContext :=
  let c1 := if strStartsWith ctx.codeValue "---" then
      String.mk (ctx.codeValue.toList.drop 3)
    else ctx.codeValue
  let c2 := if strEndsWith (trimEndStr c1) "---" then
      match (dashIndices c1.toList).getLast? with
      | some i => String.mk (c1.toList.take i)
      | none => c1
    else c1
  { ctx with codeValue := c2 }

/-- The `kind` of an automation request. -/
inductive AutoKind where
  | completions : AutoKind
  | validation : AutoKind
deriving DecidableEq

/-- The `automationFromGoodParseYAML` of `automation.js` (lines 107-123),
parameterized by the downstream engine `rest`
(`completionsFromGoodParseYAML` / `validationFromGoodParseYAML`): a
completion request on the "---" delimiters reports no completions before
trimming the ticks or consulting `rest`. -/
def automationFromGoodParseYAML {R : Type} (kind : AutoKind)
    (ctx : YamlContext) (rest : AutoKind → YamlContext → Option R) :
    Option R :=
  if kind = .completions ∧ positionInTicks ctx = true then none
  else rest kind (trimTicks ctx)

/-! ## Theorems -/

example :
    breakQuartoMdLines "python" ["---", "title: x", "---", "Hello"] =
      [⟨.raw, ["---\n", "title: x\n", "---"]⟩, ⟨.markdown, ["Hello"]⟩] := by
  decide

example :
    breakQuartoMdLines "python" ["```\x7bpython\x7d", "1+1", "```"] =
      [⟨.code "python", ["1+1"]⟩] := by
  decide

example :
    breakQuartoMdLines "python" ["", "a", "", "", "b", ""] =
      [⟨.markdown, ["a\n", "\n", "\n", "b"]⟩] := by
  decide

theorem wsChar_cases {c : Char} (h : wsChar c = true) :
    c = ' ' ∨ c = '\t' ∨ c = '\r' ∨ c = '\n' := by
  have h2 : (c = ' ' || c = '\t' || c = '\r' || c = '\n') = true := h
  simpa [Bool.or_eq_true, decide_eq_true_eq, or_assoc] using h2

theorem wsChar_ne_backtick {c : Char} (h : wsChar c = true) : (c == '`') = false := by
  rcases wsChar_cases h with h' | h' | h' | h' <;> subst h' <;> decide

theorem takeWhile_backtick_of_all_ws {cs : List Char} (h : cs.all wsChar = true) :
    cs.takeWhile (fun c => c == '`') = [] := by
  cases cs with
  | nil => rfl
  | cons c rest =>
    simp only [List.all_cons, Bool.and_eq_true] at h
    simp [List.takeWhile_cons, wsChar_ne_backtick h.1]

theorem dropWhile_backtick_of_all_ws {cs : List Char} (h : cs.all wsChar = true) :
    cs.dropWhile (fun c => c == '`') = cs := by
  cases cs with
  | nil => rfl
  | cons c rest =>
    simp only [List.all_cons, Bool.and_eq_true] at h
    simp [List.dropWhile_cons, wsChar_ne_backtick h.1]

theorem dropWhile_ws_of_all_ws {cs : List Char} (h : cs.all wsChar = true) :
    cs.dropWhile wsChar = [] := by
  rw [List.dropWhile_eq_nil_iff]
  intro x hx
  exact List.all_eq_true.mp h x hx

theorem endCode_not_startCodeCell {language l : String}
    (h : endCodeTest l = true) : startCodeCellTest language l = false := by
  unfold endCodeTest at h
  split at h
  case h_2 => exact Bool.noConfusion h
  case h_1 rest heq =>
    unfold startCodeCellTest
    rw [heq]
    have hb : wsChar '`' = false := by decide
    simp only [List.dropWhile_cons, hb, Bool.false_eq_true, if_false,
      List.takeWhile_cons, beq_self_eq_true, if_true,
      takeWhile_backtick_of_all_ws h, dropWhile_backtick_of_all_ws h,
      dropWhile_ws_of_all_ws h]
    rfl

theorem yaml_not_fence {language l : String} (h : yamlTest l = true) :
    startCodeCellTest language l = false ∧ endCodeTest l = false ∧
      startCodeTest l = false := by
  unfold yamlTest at h
  split at h
  case h_2 => exact Bool.noConfusion h
  case h_1 rest heq =>
    refine ⟨?_, ?_, ?_⟩
    · unfold startCodeCellTest
      rw [heq]
      have hd : wsChar '-' = false := by decide
      have hd2 : ('-' == '`') = false := by decide
      simp only [List.dropWhile_cons, hd, Bool.false_eq_true, if_false,
        List.takeWhile_cons, hd2, List.length_nil]
      rfl
    · unfold endCodeTest
      rw [heq]
      rfl
    · unfold startCodeTest
      rw [heq]
      rfl

theorem flushLineBuffer_flags (language : String) (k : FlushKind)
    (st : BreakState) :
    (flushLineBuffer language k st).parsedFrontMatter = st.parsedFrontMatter ∧
    (flushLineBuffer language k st).inYaml = st.inYaml ∧
    (flushLineBuffer language k st).inCodeCell = st.inCodeCell ∧
    (flushLineBuffer language k st).inCode = st.inCode := by
  unfold flushLineBuffer
  split
  · simp
  · by_cases h2 : 0 < (flushedSource st.lineBuffer).length <;> simp [h2]

/-- C2 (amended): a line matching `endCodeRegEx` — exactly three backticks
optionally followed by whitespace — processed while the segmenter is in the
target-language fenced state (`inCodeCell`) flushes the buffered lines as a
code cell tagged with the target language and leaves the fenced state. -/
theorem endCode_exact_three_flushes_code_cell (language : String)
    (st : BreakState) (line : String) (hend : endCodeTest line = true)
    (hcell : st.inCodeCell = true) :
    processLine language st line =
      flushLineBuffer language .code { st with inCodeCell := false } ∧
    (processLine language st line).inCodeCell = false := by
  have hsc := @endCode_not_startCodeCell language line hend
  have hstep : processLine language st line =
      flushLineBuffer language .code { st with inCodeCell := false } := by
    unfold processLine
    simp [hcell, hsc, hend]
  refine ⟨hstep, ?_⟩
  rw [hstep]
  simpa using
    (flushLineBuffer_flags language .code { st with inCodeCell := false }).2.2.1

/-- C2, counterexample to the claim as stated: a line of four backticks
consists of "three or more backticks and nothing else", yet processed in the
target-language fenced state it does not flush a code cell and does not leave
the fenced state — it merely toggles the opaque-fence flag and is buffered
(`endCodeRegEx` matches exactly three backticks). -/
theorem endCode_four_backticks_no_flush :
    endCodeTest "````" = false ∧
    (processLine "python" ⟨false, false, true, false, ["x"], []⟩ "````").cells
      = [] ∧
    (processLine "python" ⟨false, false, true, false, ["x"], []⟩
      "````").inCodeCell = true ∧
    (processLine "python" ⟨false, false, true, false, ["x"], []⟩
      "````").lineBuffer = ["x", "````"] := by
  decide

theorem endCode_exact_three_flushes_code_cell_witness :
    endCodeTest "```" = true ∧
    (processLine "python" ⟨false, false, true, false, ["1+1"], []⟩ "```" =
        flushLineBuffer "python" .code ⟨false, false, false, false, ["1+1"], []⟩ ∧
      (processLine "python" ⟨false, false, true, false, ["1+1"], []⟩
        "```").inCodeCell = false) ∧
    (processLine "python" ⟨false, false, true, false, ["1+1"], []⟩ "```").cells
      = [⟨.code "python", ["1+1"]⟩] :=
  ⟨by decide,
    endCode_exact_three_flushes_code_cell "python"
      ⟨false, false, true, false, ["1+1"], []⟩ "```" (by decide) (by decide),
    by decide⟩

/-- C3 (amended): while the opaque-fence flag `inCode` is set (and the
segmenter is not in a target-language code cell), any line that does not match
the target-language opening fence is appended verbatim to the buffer: no cell
is flushed, no YAML state change happens, and no code cell is started. In
particular a `---` front-matter delimiter inside an opaque fenced block is
inert. A target-language opening fence, however, is still recognized inside an
opaque block (see the counterexample), so the hypothesis excluding it cannot
be dropped. -/
theorem inCode_non_fence_line_appended (language : String) (st : BreakState)
    (line : String) (hin : st.inCode = true) (hncc : st.inCodeCell = false)
    (hnsc : startCodeCellTest language line = false) :
    (processLine language st line).lineBuffer = st.lineBuffer ++ [line] ∧
    (processLine language st line).cells = st.cells ∧
    (processLine language st line).inYaml = st.inYaml ∧
    (processLine language st line).inCodeCell = false := by
  unfold processLine
  by_cases he : endCodeTest line <;> by_cases hs : startCodeTest line <;>
    simp [hin, hncc, hnsc, he, hs]

/-- C3, counterexample to the claim as stated: a target-language opening fence
occurring inside an opaque fenced block (entered via the bare fence
"```text") IS interpreted as a state transition: the buffer is flushed as a
markdown cell and the segmenter enters the target-language code-cell state,
because the `startCodeCellRegEx` branch of `breakQuartoMd` is not guarded by
the `inCode` flag. -/
theorem target_fence_inside_opaque_block_transitions :
    (processLine "python" initBreakState "```text").inCode = true ∧
    (processLine "python" (processLine "python" initBreakState "```text")
      "```\x7bpython\x7d").inCodeCell = true ∧
    (processLine "python" (processLine "python" initBreakState "```text")
      "```\x7bpython\x7d").lineBuffer = [] ∧
    (processLine "python" (processLine "python" initBreakState "```text")
      "```\x7bpython\x7d").cells = [⟨.markdown, ["```text"]⟩] := by
  decide

theorem inCode_non_fence_line_appended_witness :
    ((⟨false, false, false, true, ["```text"], []⟩ : BreakState).inCode = true ∧
      (⟨false, false, false, true, ["```text"], []⟩ : BreakState).inCodeCell
        = false ∧
      startCodeCellTest "python" "---" = false) ∧
    ((processLine "python" ⟨false, false, false, true, ["```text"], []⟩
        "---").lineBuffer = ["```text", "---"] ∧
      (processLine "python" ⟨false, false, false, true, ["```text"], []⟩
        "---").cells = [] ∧
      (processLine "python" ⟨false, false, false, true, ["```text"], []⟩
        "---").inYaml = false ∧
      (processLine "python" ⟨false, false, false, true, ["```text"], []⟩
        "---").inCodeCell = false) :=
  ⟨⟨by decide, by decide, by decide⟩, by
    have h := inCode_non_fence_line_appended "python"
      ⟨false, false, false, true, ["```text"], []⟩ "---" (by decide) (by decide)
      (by decide)
    simpa using h⟩

theorem firstNonBlankIdxBy_none {blank : α → Bool} {ls : List α}
    (h : firstNonBlankIdxBy blank ls = none) : ∀ x ∈ ls, blank x = true := by
  induction ls with
  | nil => simp
  | cons a as ih =>
    unfold firstNonBlankIdxBy at h
    by_cases hb : blank a
    · simp only [hb, Bool.not_true, Bool.false_eq_true, if_false,
        Option.map_eq_none'] at h
      intro x hx
      rcases List.mem_cons.mp hx with hx' | hx'
      · rwa [hx']
      · exact ih h x hx'
    · simp [hb] at h

theorem firstNonBlankIdxBy_take {blank : α → Bool} {ls : List α} {i : Nat}
    (h : firstNonBlankIdxBy blank ls = some i) :
    ∀ x ∈ ls.take i, blank x = true := by
  induction ls generalizing i with
  | nil => simp
  | cons a as ih =>
    unfold firstNonBlankIdxBy at h
    by_cases hb : blank a
    · simp only [hb, Bool.not_true, Bool.false_eq_true, if_false,
        Option.map_eq_some'] at h
      obtain ⟨j, hj, rfl⟩ := h
      intro x hx
      rw [List.take_succ_cons] at hx
      rcases List.mem_cons.mp hx with hx' | hx'
      · rwa [hx']
      · exact ih hj x hx'
    · simp only [hb, Bool.not_false, if_true, Option.some.injEq] at h
      subst h
      simp

theorem firstNonBlankIdxBy_lt_length {blank : α → Bool} {ls : List α} {i : Nat}
    (h : firstNonBlankIdxBy blank ls = some i) : i < ls.length := by
  induction ls generalizing i with
  | nil => simp [firstNonBlankIdxBy] at h
  | cons a as ih =>
    unfold firstNonBlankIdxBy at h
    by_cases hb : blank a
    · simp only [hb, Bool.not_true, Bool.false_eq_true, if_false,
        Option.map_eq_some'] at h
      obtain ⟨j, hj, rfl⟩ := h
      simpa using ih hj
    · simp only [hb, Bool.not_false, if_true, Option.some.injEq] at h
      subst h
      simp

theorem mdTrimEmptyLinesBy_eq_none {blank : α → Bool} {ls : List α}
    (h : firstNonBlankIdxBy blank ls = none) :
    mdTrimEmptyLinesBy blank ls = [] := by
  unfold mdTrimEmptyLinesBy
  rw [h]

theorem mdTrimEmptyLinesBy_eq_some_none {blank : α → Bool} {ls : List α}
    {i : Nat} (h : firstNonBlankIdxBy blank ls = some i)
    (h2 : firstNonBlankIdxBy blank (ls.drop i).reverse = none) :
    mdTrimEmptyLinesBy blank ls = ls.drop i := by
  unfold mdTrimEmptyLinesBy
  rw [h]
  dsimp only
  rw [h2]

theorem mdTrimEmptyLinesBy_eq_some_some {blank : α → Bool} {ls : List α}
    {i k : Nat} (h : firstNonBlankIdxBy blank ls = some i)
    (h2 : firstNonBlankIdxBy blank (ls.drop i).reverse = some k) :
    mdTrimEmptyLinesBy blank ls =
      (ls.drop i).take ((ls.drop i).length - k) := by
  unfold mdTrimEmptyLinesBy
  rw [h]
  dsimp only
  rw [h2]

/-- The trimming of `mdTrimEmptyLines` removes only blank boundary elements:
the input splits as blank lead, the trimmed result, and blank trail. -/
theorem mdTrimEmptyLinesBy_decomp (blank : α → Bool) (ls : List α) :
    ∃ lead trail, ls = lead ++ mdTrimEmptyLinesBy blank ls ++ trail ∧
      (∀ x ∈ lead, blank x = true) ∧ (∀ x ∈ trail, blank x = true) := by
  cases h : firstNonBlankIdxBy blank ls with
  | none =>
    rw [mdTrimEmptyLinesBy_eq_none h]
    exact ⟨ls, [], by simp, firstNonBlankIdxBy_none h, by simp⟩
  | some i =>
    cases h2 : firstNonBlankIdxBy blank (ls.drop i).reverse with
    | none =>
      rw [mdTrimEmptyLinesBy_eq_some_none h h2]
      exact ⟨ls.take i, [], by simp, firstNonBlankIdxBy_take h, by simp⟩
    | some k =>
      rw [mdTrimEmptyLinesBy_eq_some_some h h2]
      refine ⟨ls.take i, (ls.drop i).drop ((ls.drop i).length - k), ?_,
        firstNonBlankIdxBy_take h, ?_⟩
      · rw [List.append_assoc, List.take_append_drop, List.take_append_drop]
      · intro x hx
        have hmem : x ∈ (ls.drop i).reverse.take k := by
          rw [List.take_reverse]
          exact List.mem_reverse.mpr hx
        exact firstNonBlankIdxBy_take h2 x hmem

theorem stringMk_toList (s : String) : String.mk s.toList = s := by
  cases s
  rfl

theorem stripNl_of_noNl {l : String} (h : noNl l) : stripNl l = l := by
  unfold stripNl
  rw [if_neg]
  intro hc
  exact h (List.mem_of_getLast?_eq_some hc)

theorem stripNl_append_nl (l : String) : stripNl (l ++ "\n") = l := by
  unfold stripNl
  have hdata : (l ++ "\n").toList = l.toList ++ ['\n'] := by
    simp [String.toList, String.data_append]
  rw [hdata, List.getLast?_concat, if_pos rfl, List.dropLast_concat,
    stringMk_toList]

theorem stripAll_addNl {b : List String} (h : ∀ l ∈ b, noNl l) :
    stripAll (addNl b) = b := by
  induction b with
  | nil => rfl
  | cons x xs ih =>
    cases xs with
    | nil =>
      simp only [addNl, stripAll, List.map_cons, List.map_nil]
      rw [stripNl_of_noNl (h x (by simp))]
    | cons y rest =>
      have hx : stripAll (addNl (y :: rest)) = y :: rest :=
        ih (fun l hl => h l (List.mem_cons_of_mem x hl))
      simp only [addNl, stripAll, List.map_cons] at hx ⊢
      rw [stripNl_append_nl, hx]

theorem isBlankStr_stripNl {x : String} (h : isBlankStr x = true) :
    isBlankStr (stripNl x) = true := by
  unfold stripNl
  split
  · unfold isBlankStr at h ⊢
    rw [List.all_eq_true] at h ⊢
    intro c hc
    exact h c (List.dropLast_subset _ hc)
  · exact h

theorem eq_dropLast_concat_of_getLast? {l : List α} {a : α}
    (h : l.getLast? = some a) : l = l.dropLast ++ [a] := by
  induction l using List.reverseRecOn with
  | nil => simp at h
  | append_singleton t b _ =>
    rw [List.getLast?_concat] at h
    obtain rfl : b = a := by injection h
    rw [List.dropLast_concat]

/-- The two `splice` steps remove only elements that are exactly the empty
string, one from each end. -/
theorem spliceTrim_decomp (buf : List String) :
    ∃ pre post, buf = pre ++ spliceTrim buf ++ post ∧
      (∀ x ∈ pre, x = "") ∧ (∀ x ∈ post, x = "") := by
  unfold spliceTrim
  by_cases hh : buf.head? = some ""
  · obtain ⟨t, rfl⟩ : ∃ t, buf = "" :: t := by
      cases buf with
      | nil => simp at hh
      | cons a t =>
        refine ⟨t, ?_⟩
        have : a = "" := by simpa using hh
        rw [this]
    rw [if_pos hh]
    simp only [List.tail_cons]
    by_cases hl : t.getLast? = some ""
    · rw [if_pos hl]
      refine ⟨[""], [""], ?_, by simp, by simp⟩
      have := eq_dropLast_concat_of_getLast? hl
      conv_lhs => rw [this]
      simp
    · rw [if_neg hl]
      exact ⟨[""], [], by simp, by simp, by simp⟩
  · rw [if_neg hh]
    by_cases hl : buf.getLast? = some ""
    · rw [if_pos hl]
      refine ⟨[], [""], ?_, by simp, by simp⟩
      have := eq_dropLast_concat_of_getLast? hl
      conv_lhs => rw [this]
      simp
    · rw [if_neg hl]
      exact ⟨[], [], by simp, by simp, by simp⟩

/-- The full `flushLineBuffer` source pipeline discards only blank lines: the
buffer splits as blank lead, the (un-decorated) emitted source, and blank
trail. -/
theorem flushedSource_decomp (buf : List String) (h : ∀ l ∈ buf, noNl l) :
    ∃ lead trail, buf = lead ++ stripAll (flushedSource buf) ++ trail ∧
      (∀ x ∈ lead, isBlankStr x = true) ∧ (∀ x ∈ trail, isBlankStr x = true) := by
  obtain ⟨pre, post, hsp, hpre, hpost⟩ := spliceTrim_decomp buf
  obtain ⟨lead', trail', hmd, hlead', htrail'⟩ :=
    mdTrimEmptyLinesBy_decomp isBlankStr (addNl (spliceTrim buf))
  have hb2 : ∀ l ∈ spliceTrim buf, noNl l := by
    intro l hl
    apply h
    rw [hsp]
    simp only [List.mem_append]
    exact Or.inl (Or.inr hl)
  have hstrip : stripAll (addNl (spliceTrim buf)) = spliceTrim buf :=
    stripAll_addNl hb2
  have hsplit : spliceTrim buf =
      stripAll lead' ++ stripAll (flushedSource buf) ++ stripAll trail' := by
    rw [← hstrip, hmd]
    simp [stripAll, flushedSource, mdTrimEmptyLines]
  refine ⟨pre ++ stripAll lead', stripAll trail' ++ post, ?_, ?_, ?_⟩
  · conv_lhs => rw [hsp, hsplit]
    simp [List.append_assoc]
  · intro x hx
    rcases List.mem_append.mp hx with hx | hx
    · rw [hpre x hx]
      decide
    · obtain ⟨y, hy, rfl⟩ := List.mem_map.mp hx
      exact isBlankStr_stripNl (hlead' y hy)
  · intro x hx
    rcases List.mem_append.mp hx with hx | hx
    · obtain ⟨y, hy, rfl⟩ := List.mem_map.mp hx
      exact isBlankStr_stripNl (htrail' y hy)
    · rw [hpost x hx]
      decide

theorem Covers.snoc_drop {language : String} {bs : List (List String)}
    {p : List String} {l : String} (hc : Covers language bs p)
    (hd : Droppable language l) : Covers language bs (p ++ [l]) := by
  induction hc with
  | nil => exact .drop l hd .nil
  | drop l' h' _ ih => exact .drop l' h' ih
  | block b hb _ ih =>
    rw [List.append_assoc]
    exact .block b hb ih

theorem Covers.append_blanks {language : String} {bs : List (List String)}
    {p q : List String} (hc : Covers language bs p)
    (hq : ∀ x ∈ q, isBlankStr x = true) : Covers language bs (p ++ q) := by
  induction q generalizing p with
  | nil => simpa using hc
  | cons x q' ih =>
    have h1 : Covers language bs (p ++ [x]) :=
      hc.snoc_drop (Or.inl (hq x (by simp)))
    have h2 : p ++ x :: q' = (p ++ [x]) ++ q' := by simp
    rw [h2]
    exact ih h1 (fun y hy => hq y (by simp [hy]))

theorem Covers.snoc_block {language : String} {bs : List (List String)}
    {p b : List String} (hc : Covers language bs p) (hb : b ≠ []) :
    Covers language (bs ++ [b]) (p ++ b) := by
  induction hc with
  | nil => simpa using Covers.block b hb Covers.nil
  | drop l' h' _ ih => exact .drop l' h' ih
  | block b' hb' _ ih =>
    rw [List.append_assoc]
    exact .block b' hb' ih

theorem flushLineBuffer_buffer_empty (language : String) (k : FlushKind)
    (st : BreakState) (h : st.lineBuffer = []) :
    flushLineBuffer language k st = st := by
  unfold flushLineBuffer
  rw [h]

theorem flushLineBuffer_buffer_nil (language : String) (k : FlushKind)
    (st : BreakState) : (flushLineBuffer language k st).lineBuffer = [] := by
  unfold flushLineBuffer
  split
  · assumption
  · by_cases h2 : 0 < (flushedSource st.lineBuffer).length <;> simp [h2]

theorem flushedSource_nil : flushedSource [] = [] := rfl

theorem flushLineBuffer_cells (language : String) (k : FlushKind)
    (st : BreakState) :
    (flushLineBuffer language k st).cells =
      if 0 < (flushedSource st.lineBuffer).length then
        st.cells ++ [⟨flushCellType language k, flushedSource st.lineBuffer⟩]
      else st.cells := by
  unfold flushLineBuffer
  cases h : st.lineBuffer with
  | nil => simp [flushedSource_nil]
  | cons a as =>
    by_cases h2 : 0 < (flushedSource (a :: as)).length <;> simp [h2]

/-- Flushing preserves coverage: after a flush, the processed prefix extended
by the old buffer is covered by the new cell list. -/
theorem covers_flush {language : String} {k : FlushKind} {st : BreakState}
    {p : List String} (hc : Covers language (cellsContent st.cells) p)
    (hnl : ∀ l ∈ st.lineBuffer, noNl l) :
    Covers language (cellsContent (flushLineBuffer language k st).cells)
      (p ++ st.lineBuffer) := by
  obtain ⟨lead, trail, hdec, hlead, htrail⟩ :=
    flushedSource_decomp st.lineBuffer hnl
  have hcells := flushLineBuffer_cells language k st
  by_cases hlen : 0 < (flushedSource st.lineBuffer).length
  · rw [if_pos hlen] at hcells
    rw [hcells]
    simp only [cellsContent, List.map_append, List.map_cons, List.map_nil]
    set inner := stripAll (flushedSource st.lineBuffer) with hi
    have hinner : inner ≠ [] := by
      rw [hi]
      unfold stripAll
      intro hz
      rw [List.map_eq_nil_iff] at hz
      rw [hz] at hlen
      simp at hlen
    have h1 : Covers language (cellsContent st.cells) (p ++ lead) :=
      hc.append_blanks hlead
    have h2 := (h1.snoc_block hinner).append_blanks htrail
    rw [hdec]
    have hre : p ++ (lead ++ inner ++ trail) =
        (((p ++ lead) ++ inner) ++ trail) := by
      simp [List.append_assoc]
    rw [hre]
    exact h2
  · rw [if_neg hlen] at hcells
    rw [hcells]
    have hempty : flushedSource st.lineBuffer = [] :=
      List.eq_nil_of_length_eq_zero (Nat.eq_zero_of_not_pos hlen)
    rw [hempty] at hdec
    simp only [stripAll, List.map_nil, List.append_nil] at hdec
    rw [hdec]
    have hblank : ∀ x ∈ lead ++ trail, isBlankStr x = true := by
      intro x hx
      rcases List.mem_append.mp hx with hx | hx
      · exact hlead x hx
      · exact htrail x hx
    have h4 := hc.append_blanks hblank
    simpa [List.append_assoc] using h4

theorem segInv_step {language : String} {processed : List String}
    {st : BreakState} {line : String} (hinv : SegInv language processed st)
    (hline : noNl line) :
    SegInv language (processed ++ [line]) (processLine language st line) := by
  obtain ⟨p, hp, hc, hnl⟩ := hinv
  have happ : processed ++ [line] = p ++ (st.lineBuffer ++ [line]) := by
    rw [hp, List.append_assoc]
  unfold processLine
  by_cases h1 : (yamlTest line && !st.inCodeCell && !st.inCode) = true
  · rw [if_pos h1]
    by_cases hY : st.inYaml = true
    · rw [if_pos hY]
      refine ⟨processed ++ [line], ?_, ?_, ?_⟩
      · show processed ++ [line] = (processed ++ [line]) ++
          (flushLineBuffer language .raw
            { st with lineBuffer := st.lineBuffer ++ [line] }).lineBuffer
        rw [flushLineBuffer_buffer_nil, List.append_nil]
      · show Covers language (cellsContent
          (flushLineBuffer language .raw
            { st with lineBuffer := st.lineBuffer ++ [line] }).cells)
          (processed ++ [line])
        rw [happ]
        refine covers_flush hc ?_
        intro l hl
        rcases List.mem_append.mp hl with hl | hl
        · exact hnl l hl
        · rw [List.mem_singleton.mp hl]
          exact hline
      · intro l hl
        rw [flushLineBuffer_buffer_nil] at hl
        simp at hl
    · rw [if_neg hY]
      refine ⟨p ++ st.lineBuffer, ?_, ?_, ?_⟩
      · show processed ++ [line] = (p ++ st.lineBuffer) ++
          ((flushLineBuffer language .markdown st).lineBuffer ++ [line])
        rw [flushLineBuffer_buffer_nil, List.nil_append, happ,
          List.append_assoc]
      · exact covers_flush hc hnl
      · intro l hl
        rw [flushLineBuffer_buffer_nil, List.nil_append] at hl
        rw [List.mem_singleton.mp hl]
        exact hline
  · rw [if_neg h1]
    by_cases h2 : startCodeCellTest language line = true
    · rw [if_pos h2]
      refine ⟨processed ++ [line], ?_, ?_, ?_⟩
      · show processed ++ [line] = (processed ++ [line]) ++
          (flushLineBuffer language .markdown st).lineBuffer
        rw [flushLineBuffer_buffer_nil, List.append_nil]
      · show Covers language
          (cellsContent (flushLineBuffer language .markdown st).cells)
          (processed ++ [line])
        have h3 := (@covers_flush language .markdown st p hc hnl).snoc_drop
          (Or.inr (Or.inl h2))
        rw [happ, ← List.append_assoc] at *
        exact h3
      · intro l hl
        rw [flushLineBuffer_buffer_nil] at hl
        simp at hl
    · rw [if_neg h2]
      by_cases h3 : endCodeTest line = true
      · rw [if_pos h3]
        by_cases h4 : st.inCodeCell = true
        · rw [if_pos h4]
          refine ⟨processed ++ [line], ?_, ?_, ?_⟩
          · show processed ++ [line] = (processed ++ [line]) ++
              (flushLineBuffer language .code
                { st with inCodeCell := false }).lineBuffer
            rw [flushLineBuffer_buffer_nil, List.append_nil]
          · have h5 := (@covers_flush language .code
              { st with inCodeCell := false } p hc hnl).snoc_drop
              (Or.inr (Or.inr h3))
            rw [happ, ← List.append_assoc]
            exact h5
          · intro l hl
            rw [flushLineBuffer_buffer_nil] at hl
            simp at hl
        · rw [if_neg h4]
          refine ⟨p, happ, hc, ?_⟩
          intro l hl
          rcases List.mem_append.mp hl with hl | hl
          · exact hnl l hl
          · rw [List.mem_singleton.mp hl]
            exact hline
      · rw [if_neg h3]
        by_cases h5 : startCodeTest line = true
        · rw [if_pos h5]
          refine ⟨p, happ, hc, ?_⟩
          intro l hl
          rcases List.mem_append.mp hl with hl | hl
          · exact hnl l hl
          · rw [List.mem_singleton.mp hl]
            exact hline
        · rw [if_neg h5]
          refine ⟨p, happ, hc, ?_⟩
          intro l hl
          rcases List.mem_append.mp hl with hl | hl
          · exact hnl l hl
          · rw [List.mem_singleton.mp hl]
            exact hline

theorem segInv_foldl {language : String} (ls : List String)
    (h : ∀ l ∈ ls, noNl l) {processed : List String} {st : BreakState}
    (hinv : SegInv language processed st) :
    SegInv language (processed ++ ls)
      (ls.foldl (processLine language) st) := by
  induction ls generalizing processed st with
  | nil => simpa using hinv
  | cons x xs ih =>
    have h1 := segInv_step hinv (h x (by simp))
    have h2 := ih (fun l hl => h l (by simp [hl])) h1
    simpa [List.append_assoc] using h2

/-- C1 (amended): re-concatenating, in document order, the (un-decorated)
source lines of all cells produced by `breakQuartoMd` reproduces the original
document up to discarded lines, every one of which is either a blank line
(trimmed from a cell boundary) or a target-language opening-fence or
closing-fence delimiter line (which `breakQuartoMd` drops without buffering);
no other line is lost and no line is duplicated. The claim as stated — that
only trimmed blank lines may be missing — fails on the dropped fence lines,
see the counterexample. -/
theorem breakQuartoMd_covers (language : String) (ls : List String)
    (h : ∀ l ∈ ls, noNl l) :
    Covers language (cellsContent (breakQuartoMdLines language ls)) ls := by
  have hinv0 : SegInv language [] initBreakState :=
    ⟨[], rfl, Covers.nil, by simp [initBreakState]⟩
  have hinv := segInv_foldl ls h hinv0
  obtain ⟨p, hp, hc, hnl⟩ := hinv
  unfold breakQuartoMdLines
  have h2 := @covers_flush language .markdown _ p hc hnl
  rw [← hp] at h2
  simpa using h2

/-- C1, counterexample to the claim as stated: in the three-line document
made of a python code cell, no line is blank, yet concatenating the source
lines of all emitted cells yields only the body line — the two fence
delimiter lines are lost even though they are not trimmed blank lines. -/
theorem fence_lines_lost_outside_blank_trim :
    (∀ l ∈ (["```\x7bpython\x7d", "1+1", "```"] : List String),
      isBlankStr l = false) ∧
    (cellsContent
      (breakQuartoMdLines "python" ["```\x7bpython\x7d", "1+1", "```"])).flatten
      = ["1+1"] ∧
    (["1+1"] : List String) ≠ ["```\x7bpython\x7d", "1+1", "```"] := by
  decide

theorem breakQuartoMd_covers_witness :
    (∀ l ∈ (["---", "a: 1", "---", "hi"] : List String), noNl l) ∧
    Covers "python"
      (cellsContent (breakQuartoMdLines "python" ["---", "a: 1", "---", "hi"]))
      ["---", "a: 1", "---", "hi"] :=
  ⟨by decide, breakQuartoMd_covers "python" ["---", "a: 1", "---", "hi"]
    (by decide)⟩

example :
    breakQuartoMdIndexed "python"
      ["---", "t: 1", "---", "", "hi", "```\x7bpython\x7d", "1+1", "```"] =
      [⟨.raw, ["---", "t: 1", "---"], 0⟩, ⟨.markdown, ["hi"], 4⟩,
        ⟨.code "python", ["1+1"], 6⟩] := by
  decide

theorem idxInv_congr {ls : List String} {cur : Nat} {st st' : IndexedState}
    (hb : st'.lineBuffer = st.lineBuffer) (hcells : st'.cells = st.cells)
    (h : IdxInv ls cur st) : IdxInv ls cur st' := by
  obtain ⟨s, h1, h2, h3, h4, h5⟩ := h
  exact ⟨s, by rw [hb]; exact h1, by rw [hb]; exact h2, by rw [hb]; exact h3,
    by rw [hcells]; exact h4, by rw [hcells]; exact h5⟩

theorem idxInv_skip_line {ls : List String} {cur : Nat} {st : IndexedState}
    (h : IdxInv ls cur st) (hb : st.lineBuffer = []) :
    IdxInv ls (cur + 1) st := by
  obtain ⟨s, h1, h2, h3, h4, h5⟩ := h
  rw [hb] at h2
  simp only [List.length_nil, Nat.add_zero] at h2
  subst h2
  refine ⟨s + 1, by rw [hb]; rfl, by rw [hb]; rfl, ?_, ?_, h5⟩
  · rw [hb]; simp
  · intro c hc
    exact ⟨(h4 c hc).1, Nat.le_succ_of_le (h4 c hc).2⟩

theorem idxInv_append_line {ls : List String} {cur : Nat}
    {st st' : IndexedState} {line : String} (h : IdxInv ls cur st)
    (hline : ls[cur]? = some line)
    (hb : st'.lineBuffer = st.lineBuffer ++ [(cur, line)])
    (hcells : st'.cells = st.cells) : IdxInv ls (cur + 1) st' := by
  obtain ⟨s, h1, h2, h3, h4, h5⟩ := h
  refine ⟨s, ?_, ?_, ?_, by rw [hcells]; exact h4, by rw [hcells]; exact h5⟩
  · rw [hb, List.map_append, h1, List.length_append]
    simp only [List.map_cons, List.map_nil, List.length_cons, List.length_nil]
    have hc : cur = s + st.lineBuffer.length := h2.symm
    rw [hc]
    have := List.range'_append s st.lineBuffer.length 1 1
    simp only [List.range'_one, Nat.one_mul] at this
    rw [this]
    congr 1
    omega
  · rw [hb, List.length_append]
    simp only [List.length_cons, List.length_nil]
    omega
  · intro q hq
    rw [hb] at hq
    rcases List.mem_append.mp hq with hq | hq
    · exact h3 q hq
    · rw [List.mem_singleton.mp hq]
      exact hline

theorem flushIndexed_eq_nil {st : IndexedState} (language : String)
    (k : FlushKind) (h : mdTrimEmptyLinesBy idxBlank st.lineBuffer = []) :
    flushIndexed language k st = { st with lineBuffer := [] } := by
  unfold flushIndexed
  rw [h]

theorem flushIndexed_eq_cons {st : IndexedState} {i : Nat} {x : String}
    {rest : List (Nat × String)} (language : String) (k : FlushKind)
    (h : mdTrimEmptyLinesBy idxBlank st.lineBuffer = (i, x) :: rest) :
    flushIndexed language k st =
      { st with
        cells := st.cells ++
          [⟨flushCellType language k, ((i, x) :: rest).map Prod.snd, i⟩],
        lineBuffer := [] } := by
  unfold flushIndexed
  rw [h]

theorem idxInv_flush {ls : List String} {cur : Nat} {st : IndexedState}
    (language : String) (k : FlushKind) (h : IdxInv ls cur st) :
    IdxInv ls cur (flushIndexed language k st) := by
  obtain ⟨s, h1, h2, h3, h4, h5⟩ := h
  have hs_le : s ≤ cur := by omega
  cases htr : mdTrimEmptyLinesBy idxBlank st.lineBuffer with
  | nil =>
    rw [flushIndexed_eq_nil language k htr]
    refine ⟨cur, by simp, by simp, by simp, ?_, by simpa using h5⟩
    intro c hc
    exact ⟨(h4 c hc).1, le_trans (h4 c hc).2 hs_le⟩
  | cons hd rest =>
    obtain ⟨i, x⟩ := hd
    rw [flushIndexed_eq_cons language k htr]
    obtain ⟨lead, trail, hdec, _hl, _ht⟩ :=
      mdTrimEmptyLinesBy_decomp idxBlank st.lineBuffer
    rw [htr] at hdec
    have hlen : st.lineBuffer.length =
        lead.length + (((i, x) :: rest).length + trail.length) := by
      rw [hdec]
      simp [List.length_append]
      omega
    have hmap : lead.map Prod.fst ++
        (((i, x) :: rest).map Prod.fst ++ trail.map Prod.fst) =
        List.range' s lead.length ++
          List.range' (s + lead.length)
            (((i, x) :: rest).length + trail.length) := by
      have e1 : List.range' s lead.length ++
          List.range' (s + lead.length)
            (((i, x) :: rest).length + trail.length) =
          List.range' s st.lineBuffer.length := by
        have e2 := List.range'_append s lead.length
          (((i, x) :: rest).length + trail.length) 1
        simp only [Nat.one_mul] at e2
        rw [e2]
        congr 1
        omega
      rw [e1, ← h1, hdec]
      simp [List.map_append, List.append_assoc]
    have hsplit1 := List.append_inj hmap (by simp)
    have hmap2 : ((i, x) :: rest).map Prod.fst ++ trail.map Prod.fst =
        List.range' (s + lead.length) ((i, x) :: rest).length ++
          List.range' (s + lead.length + ((i, x) :: rest).length)
            trail.length := by
      rw [hsplit1.2]
      have e3 := List.range'_append (s + lead.length) ((i, x) :: rest).length
        trail.length 1
      simp only [Nat.one_mul] at e3
      rw [e3]
      congr 1
      omega
    have hsplit2 := List.append_inj hmap2 (by simp)
    have htfst : ((i, x) :: rest).map Prod.fst =
        List.range' (s + lead.length) ((i, x) :: rest).length := hsplit2.1
    have hi : i = s + lead.length := by
      have e4 : ((i, x) :: rest).map Prod.fst =
          (s + lead.length) :: List.range' (s + lead.length + 1)
            rest.length := by
        rw [htfst]
        have e5 := List.range'_succ (s + lead.length) rest.length 1
        simp only [List.length_cons] at *
        rw [e5]
      simpa using congrArg List.head? e4
    have htm : ∀ q ∈ (i, x) :: rest, q ∈ st.lineBuffer := by
      intro q hq
      rw [hdec]
      simp only [List.mem_append]
      exact Or.inl (Or.inr hq)
    have hok : CellOk ls
        ⟨flushCellType language k, ((i, x) :: rest).map Prod.snd, i⟩ := by
      constructor
      · simp
      · intro j hj
        simp only [List.length_map] at hj
        have hq : ((i, x) :: rest)[j]? = some (((i, x) :: rest)[j]) :=
          List.getElem?_eq_getElem hj
        have hqmem : ((i, x) :: rest)[j] ∈ (i, x) :: rest :=
          List.getElem_mem hj
        have hfst : (((i, x) :: rest)[j]).1 = i + j := by
          have e6 := congrArg (fun l => l[j]?) htfst
          simp only [List.getElem?_map, hq, Option.map_some',
            List.getElem?_range' _ _ hj, Nat.one_mul] at e6
          have := Option.some.inj e6
          rw [this, hi]
        show ls[i + j]? = (((i, x) :: rest).map Prod.snd)[j]?
        rw [List.getElem?_map, hq, Option.map_some', ← hfst]
        exact h3 _ (htm _ hqmem)
    refine ⟨cur, by simp, by simp, by simp, ?_, ?_⟩
    · intro c hc
      simp only [List.mem_append, List.mem_singleton] at hc
      rcases hc with hc | hc
      · exact ⟨(h4 c hc).1, le_trans (h4 c hc).2 hs_le⟩
      · subst hc
        refine ⟨hok, ?_⟩
        simp only [List.length_map, List.length_cons]
        simp only [List.length_cons] at hlen
        omega
    · rw [List.chain'_append]
      refine ⟨h5, List.chain'_singleton _, ?_⟩
      intro a ha b hb
      simp only [List.head?_cons, Option.mem_def, Option.some.injEq] at hb
      subst hb
      have hmem := List.mem_of_getLast?_eq_some ha
      have h6 := h4 a hmem
      have hlen_pos : 0 < a.source.length := by
        cases hsrc : a.source with
        | nil => exact absurd hsrc h6.1.1
        | cons y ys => simp [hsrc]
      show a.cellStartLine < i
      rw [hi]
      omega

theorem flushIndexed_buffer_nil (language : String) (k : FlushKind)
    (st : IndexedState) : (flushIndexed language k st).lineBuffer = [] := by
  cases htr : mdTrimEmptyLinesBy idxBlank st.lineBuffer with
  | nil => rw [flushIndexed_eq_nil language k htr]
  | cons hd rest =>
    obtain ⟨i, x⟩ := hd
    rw [flushIndexed_eq_cons language k htr]

theorem idxInv_step {ls : List String} {cur : Nat} {st : IndexedState}
    {line : String} (language : String) (h : IdxInv ls cur st)
    (hline : ls[cur]? = some line) :
    IdxInv ls (cur + 1) (processLineIndexed language st (cur, line)) := by
  unfold processLineIndexed
  dsimp only
  by_cases h1 : (yamlTest line && !st.inCodeCell && !st.inCode) = true
  · rw [if_pos h1]
    by_cases hY : st.inYaml = true
    · rw [if_pos hY]
      exact idxInv_congr rfl rfl
        (idxInv_flush language .raw (idxInv_append_line h hline rfl rfl))
    · rw [if_neg hY]
      exact idxInv_append_line (idxInv_flush language .markdown h) hline rfl rfl
  · rw [if_neg h1]
    by_cases h2 : startCodeCellTest language line = true
    · rw [if_pos h2]
      refine idxInv_skip_line
        (idxInv_congr rfl rfl (idxInv_flush language .markdown h)) ?_
      show (flushIndexed language .markdown st).lineBuffer = []
      exact flushIndexed_buffer_nil language .markdown st
    · rw [if_neg h2]
      by_cases h3 : endCodeTest line = true
      · rw [if_pos h3]
        by_cases h4 : st.inCodeCell = true
        · rw [if_pos h4]
          refine idxInv_skip_line
            (idxInv_flush language .code (idxInv_congr rfl rfl h)) ?_
          exact flushIndexed_buffer_nil language .code _
        · rw [if_neg h4]
          exact idxInv_append_line h hline rfl rfl
      · rw [if_neg h3]
        by_cases h5 : startCodeTest line = true
        · rw [if_pos h5]
          exact idxInv_append_line h hline rfl rfl
        · rw [if_neg h5]
          exact idxInv_append_line h hline rfl rfl

theorem idxInv_foldl (language : String) (ls : List String)
    (tail : List String) :
    ∀ (cur : Nat) (st : IndexedState), IdxInv ls cur st →
    (∀ j, j < tail.length → ls[cur + j]? = tail[j]?) →
    IdxInv ls (cur + tail.length)
      ((List.enumFrom cur tail).foldl (processLineIndexed language) st) := by
  induction tail with
  | nil =>
    intro cur st h _
    simpa using h
  | cons x xs ih =>
    intro cur st h hsub
    have hline : ls[cur]? = some x := by
      have := hsub 0 (by simp)
      simpa using this
    have hstep := idxInv_step language h hline
    have hsub' : ∀ j, j < xs.length → ls[(cur + 1) + j]? = xs[j]? := by
      intro j hj
      have := hsub (j + 1) (by simpa using Nat.succ_lt_succ hj)
      have harith : cur + (j + 1) = (cur + 1) + j := by omega
      rw [harith] at this
      simpa using this
    have hrec := ih (cur + 1) _ hstep hsub'
    have harith2 : (cur + 1) + xs.length = cur + (x :: xs).length := by
      simp
      omega
    rw [harith2] at hrec
    simpa [List.enumFrom] using hrec

/-- C6: every cell emitted by the instrumented segmenter records in
`cellStartLine` the root-document line number of the cell's first source line
(line `j` of the cell is line `cellStartLine + j` of the document), and the
emitted cell list preserves document order (`cellStartLine` strictly
increases). -/
theorem breakQuartoMdIndexed_ok (language : String) (ls : List String) :
    (∀ c ∈ breakQuartoMdIndexed language ls, CellOk ls c) ∧
    List.Chain' (fun a b => a.cellStartLine < b.cellStartLine)
      (breakQuartoMdIndexed language ls) := by
  have h0 : IdxInv ls 0 initIndexedState :=
    ⟨0, by simp [initIndexedState], by simp [initIndexedState],
      by simp [initIndexedState], by simp [initIndexedState],
      by simp [initIndexedState]⟩
  have hf := idxInv_foldl language ls ls 0 initIndexedState h0
    (by intro j hj; simp)
  rw [Nat.zero_add] at hf
  have hf2 := idxInv_flush language .markdown hf
  obtain ⟨s, _, _, _, h4, h5⟩ := hf2
  unfold breakQuartoMdIndexed
  exact ⟨fun c hc => (h4 c hc).1, h5⟩

example : navigateSchema (.sUnion [.sObject [("a", .sBoolean)],
    .sObject [("b", .sString)]]) [.key "a"] = [.sBoolean] := by
  simp [navigateSchema, navigateUnion, navigateProps]

theorem navigateSchema_nil_path (s : Schema) : navigateSchema s [] = [s] := by
  cases s <;> simp [navigateSchema]

theorem navigateProps_single_len (props : List (String × Schema)) (k : String) :
    (navigateProps props k []).length ≤ 1 := by
  induction props with
  | nil => simp [navigateProps]
  | cons p ps ih =>
    obtain ⟨k', s⟩ := p
    by_cases hk : k' = k
    · simp [navigateProps, hk, navigateSchema_nil_path]
    · simpa [navigateProps, hk] using ih

theorem navigate_non_union_single_len {a : Schema}
    (h : ∀ l, a ≠ Schema.sUnion l) (seg : PathSeg) :
    (navigateSchema a [seg]).length ≤ 1 := by
  cases a with
  | sBoolean => simp [navigateSchema]
  | sString => simp [navigateSchema]
  | sNumber => simp [navigateSchema]
  | sObject props =>
    cases seg with
    | key k => simpa [navigateSchema] using navigateProps_single_len props k
    | idx n => simp [navigateSchema]
  | sArray items =>
    cases seg with
    | key k => simp [navigateSchema]
    | idx n => simp [navigateSchema, navigateSchema_nil_path]
  | sUnion alts => exact absurd rfl (h alts)

/-- C4 (amended): for a root union schema whose alternatives are not
themselves unions, `navigateSchema` on a one-segment path returns exactly one
sub-schema per alternative in which the path is valid — each invalid branch
drops only itself — so the result has exactly j elements when the path is
valid in exactly j alternatives; and for every schema the empty path returns
the singleton containing the schema itself. Without the non-union condition
the count can exceed j (see the counterexample), since a union alternative
can contribute several sub-schemas. -/
theorem navigateSchema_union_count (alts : List Schema) (seg : PathSeg)
    (h : ∀ a ∈ alts, ∀ l, a ≠ Schema.sUnion l) :
    (navigateSchema (.sUnion alts) [seg]).length =
      alts.countP (fun a => !(navigateSchema a [seg]).isEmpty) ∧
    ∀ s : Schema, navigateSchema s [] = [s] := by
  refine ⟨?_, navigateSchema_nil_path⟩
  induction alts with
  | nil => simp [navigateSchema, navigateUnion]
  | cons a as ih =>
    have ha := h a (by simp)
    have has : ∀ b ∈ as, ∀ l, b ≠ Schema.sUnion l :=
      fun b hb => h b (by simp [hb])
    have hrec := ih has
    simp only [navigateSchema, navigateUnion] at hrec ⊢
    rw [List.length_append, List.countP_cons]
    have hlen := navigate_non_union_single_len ha seg
    by_cases hvs : (navigateSchema a [seg]).isEmpty = true
    · rw [List.isEmpty_iff] at hvs
      simp [hvs, hrec, List.isEmpty_iff]
    · have hone : (navigateSchema a [seg]).length = 1 := by
        rw [List.isEmpty_iff] at hvs
        have hne : (navigateSchema a [seg]).length ≠ 0 := by
          simpa [List.length_eq_zero] using hvs
        omega
      have hfalse : (navigateSchema a [seg]).isEmpty = false :=
        Bool.not_eq_true _ ▸ eq_false_of_ne_true hvs
      rw [hone, hrec, hfalse]
      simp
      omega

/-- C4, counterexample to the claim as stated: a root union with a single
alternative that is itself a union of two objects both accepting key "a"; the
path is valid in exactly one alternative, but `navigateSchema` returns two
sub-schemas. -/
theorem navigateSchema_nested_union_overcounts :
    ([Schema.sUnion [Schema.sObject [("a", Schema.sBoolean)],
        Schema.sObject [("a", Schema.sString)]]].countP
      (fun a => !(navigateSchema a [PathSeg.key "a"]).isEmpty)) = 1 ∧
    (navigateSchema
      (.sUnion [.sUnion [.sObject [("a", .sBoolean)],
        .sObject [("a", .sString)]]])
      [.key "a"]).length = 2 := by
  constructor <;>
    simp [navigateSchema, navigateUnion, navigateProps, List.countP_cons]

theorem navigateSchema_union_count_witness :
    (∀ a ∈ ([.sObject [("a", .sBoolean)], .sObject [("b", .sString)],
        .sNumber] : List Schema), ∀ l, a ≠ Schema.sUnion l) ∧
    ((navigateSchema
        (.sUnion [.sObject [("a", .sBoolean)], .sObject [("b", .sString)],
          .sNumber]) [.key "a"]).length =
      ([.sObject [("a", .sBoolean)], .sObject [("b", .sString)],
        .sNumber] : List Schema).countP
        (fun a => !(navigateSchema a [.key "a"]).isEmpty) ∧
      ∀ s : Schema, navigateSchema s [] = [s]) ∧
    (navigateSchema
      (.sUnion [.sObject [("a", .sBoolean)], .sObject [("b", .sString)],
        .sNumber]) [.key "a"]).length = 1 :=
  ⟨by simp, navigateSchema_union_count _ _ (by simp),
    by simp [navigateSchema, navigateUnion, navigateProps]⟩

theorem indentCompletion_ctype (indent : Nat) (cp : String) (c : Completion) :
    (indentCompletion indent cp c).ctype = c.ctype := by
  unfold indentCompletion
  split
  · rfl
  · split
    · split
      · rfl
      · split <;> rfl
    · rfl

theorem indentCompletion_value_id (indent : Nat) (cp : String)
    {c : Completion} (h : c.ctype = CType.value) :
    indentCompletion indent cp c = c := by
  unfold indentCompletion
  rw [if_pos]
  simp [h]

/-- C8: for a completion request whose current line contains ":" (value
position of an object entry), the returned completions are exactly — up to
the sort performed by `completions` — the value-type completion candidates of
the schemas reachable at the cursor path whose value starts with the word
being typed, in non-decreasing value order. The indentation rewrite never
touches value completions, so it is absent from the right-hand side. -/
theorem value_position_completions (schema : Schema) (path : List PathSeg)
    (word : String) (indent : Nat) (cp : String) (line : String)
    (hcolon : strContains line ':' = true) :
    (finishCompletions line
        (completionsFn schema path word indent cp)).completions.Perm
      (((navigateSchema schema path).map schemaCompletions).flatten.filter
        (fun c => c.ctype == CType.value && strStartsWith c.value word)) ∧
    List.Sorted completionLe
      (finishCompletions line
        (completionsFn schema path word indent cp)).completions := by
  have hM : ((navigateSchema schema path).map
      (fun s => (schemaCompletions s).map
        (indentCompletion indent cp))).flatten =
      (((navigateSchema schema path).map schemaCompletions).flatten).map
        (indentCompletion indent cp) := by
    rw [List.map_flatten, List.map_map]
    rfl
  have hfin : (finishCompletions line
      (completionsFn schema path word indent cp)).completions =
      (List.insertionSort completionLe
        (((((navigateSchema schema path).map schemaCompletions).flatten).map
            (indentCompletion indent cp)).filter
          (fun c => strStartsWith c.value word))).filter
        (fun c => c.ctype == CType.value) := by
    unfold finishCompletions completionsFn
    rw [if_pos hcolon, hM]
  have hfil : (((((navigateSchema schema path).map
      schemaCompletions).flatten).map (indentCompletion indent cp)).filter
        (fun c => strStartsWith c.value word)).filter
        (fun c => c.ctype == CType.value) =
      ((navigateSchema schema path).map schemaCompletions).flatten.filter
        (fun c => c.ctype == CType.value && strStartsWith c.value word) := by
    rw [List.filter_filter, List.filter_map]
    have hcong : ∀ c ∈ ((navigateSchema schema path).map
        schemaCompletions).flatten,
        ((fun a => (a.ctype == CType.value) && strStartsWith a.value word) ∘
          indentCompletion indent cp) c =
        (fun a => (a.ctype == CType.value) && strStartsWith a.value word)
          c := by
      intro c _
      simp only [Function.comp_apply]
      by_cases hv : c.ctype = CType.value
      · rw [indentCompletion_value_id indent cp hv]
      · have h1 : (indentCompletion indent cp c).ctype = c.ctype :=
          indentCompletion_ctype indent cp c
        have h2 : (c.ctype == CType.value) = false := by
          simpa using hv
        have h3 : ((indentCompletion indent cp c).ctype == CType.value)
            = false := by
          rw [h1]
          exact h2
        rw [h2, h3]
        simp
    rw [List.filter_congr hcong]
    have hid : ∀ c ∈ (((navigateSchema schema path).map
        schemaCompletions).flatten).filter
          (fun a => (a.ctype == CType.value) && strStartsWith a.value word),
        indentCompletion indent cp c = id c := by
      intro c hc
      have := (List.mem_filter.mp hc).2
      simp only [Bool.and_eq_true, beq_iff_eq] at this
      exact indentCompletion_value_id indent cp this.1
    rw [List.map_congr_left hid, List.map_id]
  constructor
  · rw [hfin, ← hfil]
    exact List.Perm.filter _ (List.perm_insertionSort completionLe _)
  · rw [hfin]
    exact List.Pairwise.filter (fun c => c.ctype == CType.value)
      (List.sorted_insertionSort completionLe _)

theorem value_position_completions_witness :
    strContains "echo: tru" ':' = true ∧
    ((finishCompletions "echo: tru"
        (completionsFn (Schema.sObject [("echo", Schema.sBoolean)])
          [PathSeg.key "echo"] "tru" 0 "#| ")).completions.Perm
      (((navigateSchema (Schema.sObject [("echo", Schema.sBoolean)])
          [PathSeg.key "echo"]).map schemaCompletions).flatten.filter
        (fun c => c.ctype == CType.value && strStartsWith c.value "tru")) ∧
      List.Sorted completionLe
        (finishCompletions "echo: tru"
          (completionsFn (Schema.sObject [("echo", Schema.sBoolean)])
            [PathSeg.key "echo"] "tru" 0 "#| ")).completions) ∧
    ((finishCompletions "echo: tru"
        (completionsFn (Schema.sObject [("echo", Schema.sBoolean)])
          [PathSeg.key "echo"] "tru" 0 "#| ")).completions.map
      (fun c => c.value)) = ["true"] := by
  refine ⟨by decide, value_position_completions
    (Schema.sObject [("echo", Schema.sBoolean)]) [PathSeg.key "echo"]
    "tru" 0 "#| " "echo: tru" (by decide), ?_⟩
  have h1 : navigateSchema (Schema.sObject [("echo", Schema.sBoolean)])
      [PathSeg.key "echo"] = [Schema.sBoolean] := by
    simp [navigateSchema, navigateProps]
  have h2 : schemaCompletions Schema.sBoolean =
      [⟨"true", .value, .sBoolean, true⟩, ⟨"false", .value, .sBoolean, true⟩] := by
    simp [schemaCompletions]
  unfold finishCompletions completionsFn
  rw [h1]
  simp only [List.map_cons, List.map_nil, h2]
  decide

/-- C9: every completion result produced by the engine has its completion
array sorted in non-decreasing order of value (the `localeCompare` sort,
modelled as lexicographic string order), and carries `cacheable = true` and
`token` equal to the word being completed — before and after any of the
cursor-context filters applied by `completionsFromGoodParseYAML`. -/
theorem completion_result_invariants (schema : Schema) (path : List PathSeg)
    (word : String) (indent : Nat) (cp : String) (line : String) :
    List.Sorted completionLe
      (finishCompletions line
        (completionsFn schema path word indent cp)).completions ∧
    (finishCompletions line
      (completionsFn schema path word indent cp)).cacheable = true ∧
    (finishCompletions line
      (completionsFn schema path word indent cp)).token = word := by
  refine ⟨?_, ?_, ?_⟩
  · unfold finishCompletions completionsFn
    split
    · exact List.Pairwise.filter _ (List.sorted_insertionSort completionLe _)
    · split
      · exact List.Pairwise.filter _ (List.sorted_insertionSort completionLe _)
      · exact List.sorted_insertionSort completionLe _
  · unfold finishCompletions
    split
    · rfl
    · split <;> rfl
  · unfold finishCompletions
    split
    · rfl
    · split <;> rfl

theorem validationFromGoodParseYAML_no_usable {T A L : Type}
    (buildAnnotated : T → String → Option A) (validate : A → List L)
    (attempts : List (ParseAttempt T))
    (h : ∀ pa ∈ attempts, buildAnnotated pa.tree pa.mappedCode = none) :
    validationFromGoodParseYAML buildAnnotated validate attempts = [] := by
  induction attempts with
  | nil => rfl
  | cons pa rest ih =>
    unfold validationFromGoodParseYAML
    rw [h pa (by simp)]
    exact ih (fun q hq => h q (by simp [hq]))

theorem completionsLoop_no_usable {T : Type}
    (processAttempt : ParseAttempt T → Option CompletionResult)
    (attempts : List (ParseAttempt T))
    (h : ∀ pa ∈ attempts, processAttempt pa = none) :
    completionsLoop processAttempt attempts = none := by
  induction attempts with
  | nil => rfl
  | cons pa rest ih =>
    unfold completionsLoop
    rw [h pa (by simp)]
    exact ih (fun q hq => h q (by simp [hq]))

theorem attemptParses_deletions_eq {T : Type} (parse : String → Option T)
    (line : String) {d : Nat} {pa : ParseAttempt T}
    (h : pa ∈ (parse (truncateLine line d)).map
      (fun t => (⟨t, truncateLine line d, d⟩ : ParseAttempt T))) :
    pa.deletions = d := by
  cases hp : parse (truncateLine line d) with
  | none => rw [hp] at h; simp at h
  | some t =>
    rw [hp] at h
    simp only [Option.map_some', Option.mem_def, Option.some.injEq] at h
    rw [← h]

/-- C5 (amended): the recovery parser's attempt sequence for a line of length
N has at most N+1 elements and strictly increasing `deletions` counts (so it
is finite and terminates); and when no attempt yields a usable parse, the
validation caller returns an empty lint list and — for a non-blank editing
line — the completion caller returns no completions, neither ever raising.
For a whitespace-only line the completion caller does not consult the
attempts at all and may return indentation-based completions (see the
counterexample), so the non-blank hypothesis cannot be dropped. -/
theorem attemptParses_bounded_callers_total {T A L : Type}
    (parse : String → Option T) (line : String)
    (buildAnnotated : T → String → Option A) (validate : A → List L)
    (schema : Schema) (word : String) (cp : String)
    (locateIndent : Unit → List PathSeg)
    (processAttempt : ParseAttempt T → Option CompletionResult)
    (hno : ∀ pa ∈ attemptParsesAtLine parse line,
      buildAnnotated pa.tree pa.mappedCode = none)
    (hno2 : ∀ pa ∈ attemptParsesAtLine parse line, processAttempt pa = none)
    (hblank : isBlankStr line = false) :
    (attemptParsesAtLine parse line).length ≤ line.toList.length + 1 ∧
    List.Pairwise (fun a b => a.deletions < b.deletions)
      (attemptParsesAtLine parse line) ∧
    validationFromGoodParseYAML buildAnnotated validate
      (attemptParsesAtLine parse line) = [] ∧
    completionsFromGoodParseYAML schema word line cp locateIndent
      processAttempt (attemptParsesAtLine parse line) = none := by
  refine ⟨?_, ?_, ?_, ?_⟩
  · calc (attemptParsesAtLine parse line).length
        ≤ (List.range (line.toList.length + 1)).length :=
          List.length_filterMap_le _ _
      _ = line.toList.length + 1 := List.length_range _
  · unfold attemptParsesAtLine
    rw [List.pairwise_filterMap]
    have hr := List.pairwise_lt_range (line.toList.length + 1)
    refine hr.imp ?_
    intro d d' hdd' pa hpa pa' hpa'
    rw [attemptParses_deletions_eq parse line hpa,
      attemptParses_deletions_eq parse line hpa']
    exact hdd'
  · exact validationFromGoodParseYAML_no_usable _ _ _ hno
  · unfold completionsFromGoodParseYAML
    rw [if_neg (by simp [hblank])]
    exact completionsLoop_no_usable _ _ hno2

/-- C5, counterexample to the claim as stated: for the whitespace-only line
" " and a parser accepting nothing, no attempt yields a usable parse, yet the
completion caller does not return "no completions": it completes from
indentation, here offering the key completion "echo: ". -/
theorem blank_line_completions_without_parse :
    attemptParsesAtLine (fun _ => (none : Option Unit)) " " = [] ∧
    ((completionsFromGoodParseYAML (Schema.sObject [("echo", Schema.sBoolean)])
      "" " " "" (fun _ => []) (fun _ => none)
      (attemptParsesAtLine (fun _ => (none : Option Unit)) " ")).map
        (fun r => r.completions.map (fun c => c.value))) = some ["echo: "] := by
  constructor
  · decide
  · unfold completionsFromGoodParseYAML completionsFn
    rw [if_pos (by decide), navigateSchema_nil_path]
    have h2 : schemaCompletions (Schema.sObject [("echo", Schema.sBoolean)]) =
        [⟨"echo: ", .key, Schema.sObject [("echo", Schema.sBoolean)], true⟩] := by
      simp [schemaCompletions]
    simp only [List.map_cons, List.map_nil, h2]
    decide

theorem attemptParses_bounded_callers_total_witness :
    (∀ pa ∈ attemptParsesAtLine (fun _ => (none : Option Unit)) "x: ",
      (fun (_ : Unit) (_ : String) => (none : Option Unit)) pa.tree
        pa.mappedCode = none) ∧
    isBlankStr "x: " = false ∧
    ((attemptParsesAtLine (fun _ => (none : Option Unit)) "x: ").length ≤
        ("x: ".toList.length + 1) ∧
      List.Pairwise (fun a b => a.deletions < b.deletions)
        (attemptParsesAtLine (fun _ => (none : Option Unit)) "x: ") ∧
      validationFromGoodParseYAML
        (fun (_ : Unit) (_ : String) => (none : Option Unit))
        (fun (_ : Unit) => ([] : List Unit))
        (attemptParsesAtLine (fun _ => (none : Option Unit)) "x: ") = [] ∧
      completionsFromGoodParseYAML Schema.sBoolean "" "x: " ""
        (fun _ => []) (fun _ => none)
        (attemptParsesAtLine (fun _ => (none : Option Unit)) "x: ") = none) :=
  ⟨by decide, by decide,
    attemptParses_bounded_callers_total (fun _ => none) "x: "
      (fun _ _ => none) (fun _ => []) Schema.sBoolean "" ""
      (fun _ => []) (fun _ => none) (by simp) (by simp) (by decide)⟩

theorem cellLangLints_eq_flatten {L : Type}
    (langSchemas : String → Option Unit)
    (partitionValidate : VCell → Except (List L) Unit) (cells : List VCell) :
    cellLangLints langSchemas partitionValidate cells =
      (cells.map (perCellErrors langSchemas partitionValidate)).flatten := by
  induction cells with
  | nil => rfl
  | cons c rest ih =>
    have hhead : cellLangLints langSchemas partitionValidate (c :: rest) =
        perCellErrors langSchemas partitionValidate c ++
          cellLangLints langSchemas partitionValidate rest := by
      conv_lhs => rw [cellLangLints.eq_def]
      unfold perCellErrors
      cases hct : c.cell_type with
      | code lang =>
        simp only [hct]
        cases h : langSchemas lang with
        | none => simp [h]
        | some u =>
          cases hp : partitionValidate c with
          | error es => simp [h, hp]
          | ok u2 => simp [h, hp]
      | markdown => simp [hct]
      | raw => simp [hct]
      | math => simp [hct]
    rw [List.map_cons, List.flatten_cons, hhead, ih]

/-- C7: `validateDocumentFromSource` throws exactly when the document's first
cell begins with "---" but does not end with "---"; in every other case it
returns (never throws) the lint list consisting of the front-matter errors
(when the first cell is front matter) followed by, in document order, the
error lists of the per-cell option `ValidationError`s, each caught and
appended rather than propagated. -/
theorem validateDocumentFromSource_error_iff {L : Type} (cells : List VCell)
    (fmValidate : String → List L) (langSchemas : String → Option Unit)
    (partitionValidate : VCell → Except (List L) Unit) :
    ((∃ e, validateDocumentFromSource cells fmValidate langSchemas
        partitionValidate = .error e) ↔
      (∃ c cs, cells = c :: cs ∧ strStartsWith c.source "---" = true ∧
        strEndsWith c.source "---" = false)) ∧
    (∀ c cs, cells = c :: cs →
      strStartsWith c.source "---" = true → strEndsWith c.source "---" = true →
      validateDocumentFromSource cells fmValidate langSchemas
        partitionValidate =
        .ok (fmValidate c.source ++
          (cs.map (perCellErrors langSchemas partitionValidate)).flatten)) ∧
    (∀ c cs, cells = c :: cs → strStartsWith c.source "---" = false →
      validateDocumentFromSource cells fmValidate langSchemas
        partitionValidate =
        .ok (((c :: cs).map
          (perCellErrors langSchemas partitionValidate)).flatten)) := by
  refine ⟨?_, ?_, ?_⟩
  · constructor
    · intro ⟨e, he⟩
      cases cells with
      | nil => simp [validateDocumentFromSource] at he
      | cons c cs =>
        unfold validateDocumentFromSource at he
        by_cases h1 : strStartsWith c.source "---" = true <;>
          by_cases h2 : strEndsWith c.source "---" = true <;>
          simp only [h1, h2, Bool.not_true, Bool.not_false, if_true, if_false,
            Bool.false_eq_true, reduceCtorEq, reduceIte] at he
        exact ⟨c, cs, rfl, by simpa using h1, by simpa using h2⟩
    · intro ⟨c, cs, hcells, h1, h2⟩
      subst hcells
      refine ⟨"Expected front matter to end with ---", ?_⟩
      unfold validateDocumentFromSource
      simp [h1, h2]
  · intro c cs hcells h1 h2
    subst hcells
    unfold validateDocumentFromSource
    simp [h1, h2, cellLangLints_eq_flatten]
  · intro c cs hcells h1
    subst hcells
    unfold validateDocumentFromSource
    simp [h1, cellLangLints_eq_flatten]

theorem validateDocumentFromSource_witness :
    strStartsWith "---\na: 3\n---" "---" = true ∧
    strEndsWith "---\na: 3\n---" "---" = true ∧
    validateDocumentFromSource
      [⟨CellType.raw, "---\na: 3\n---"⟩, ⟨CellType.code "python", "#| x"⟩]
      (fun _ => ["fm"]) (fun l => if l = "python" then some () else none)
      (fun _ => Except.error ["pe"]) = Except.ok ["fm", "pe"] :=
  ⟨by decide, by decide, by
    have h := (validateDocumentFromSource_error_iff
      [⟨CellType.raw, "---\na: 3\n---"⟩, ⟨CellType.code "python", "#| x"⟩]
      (fun _ => ["fm"]) (fun l => if l = "python" then some () else none)
      (fun _ => Except.error ["pe"])).2.1
      ⟨CellType.raw, "---\na: 3\n---"⟩ [⟨CellType.code "python", "#| x"⟩]
      rfl (by decide) (by decide)
    rw [h]
    exact congrArg Except.ok (by decide)⟩

/-- C10: for a completion request whose cursor row is row 0 of a YAML block
whose text starts with "---", or the last row of a block whose trimmed text
ends with "---", the YAML automation returns no completions — uniformly in
the downstream engine, so neither the schema nor the parser is consulted. -/
theorem completions_on_ticks_none {R : Type} (ctx : YamlContext)
    (h : (strStartsWith ctx.codeValue "---" = true ∧ ctx.row = 0) ∨
      (strEndsWith (trimEndStr ctx.codeValue) "---" = true ∧
        ctx.row = (linesOf ctx.codeValue).length - 1)) :
    ∀ rest : AutoKind → YamlContext → Option R,
      automationFromGoodParseYAML .completions ctx rest = none := by
  intro rest
  have hticks : positionInTicks ctx = true := by
    unfold positionInTicks
    rcases h with ⟨h1, h2⟩ | ⟨h1, h2⟩
    · rw [h1, h2]
      simp
    · rw [h1, h2]
      simp
  unfold automationFromGoodParseYAML
  rw [if_pos ⟨rfl, hticks⟩]

theorem completions_on_ticks_none_witness :
    (strStartsWith "---\ntitle: x\n---" "---" = true ∧ (0 : Nat) = 0) ∧
    automationFromGoodParseYAML .completions ⟨"---\ntitle: x\n---", 0⟩
      (fun _ _ => some ()) = none :=
  ⟨⟨by decide, rfl⟩,
    completions_on_ticks_none ⟨"---\ntitle: x\n---", 0⟩
      (Or.inl ⟨by decide, rfl⟩) (fun _ _ => some ())⟩
